import Mathlib

/-!
Verification development for the NTFS on-disk-structure engine in
`src/native/usnscanner/addon.cpp`: the USN journal scanner, the MFT
file-record parser (attribute walk and data-run decoding), and the raw
cluster recovery writer.

Modelling conventions:
* Bytes are `Nat` values; theorems carry `< 256` hypotheses where needed.
* C `long long` / `ULONGLONG` values are modelled by their 64-bit patterns
  (`Nat` reduced modulo `2 ^ 64` where overflow can occur) together with
  `toSigned64`, which reinterprets a 64-bit pattern as a two's-complement
  integer.
* Buffers are `List Nat`; pointer arithmetic becomes `List.drop`/`List.take`.
-/

namespace UsnScanner

/-- Two's-complement reinterpretation of a 64-bit pattern as an integer,
modelling how a C `long long` register holding that pattern compares and
computes as a signed value. -/
def toSigned64 (u : Nat) : Int :=
  if u < 2 ^ 63 then (u : Int) else (u : Int) - 2 ^ 64

/-- Little-endian byte accumulation: the loop `value |= data[i] << (8*i)`
shared by `ReadSignedValue`, the run-length read in `ParseRunList`, and the
field reads of the packed structs.  Folding from the front, each byte is
OR-ed below the accumulated higher bytes shifted up by 8. -/
def readLE : List Nat → Nat
  | [] => 0
  | b :: rest => b ||| (readLE rest <<< 8)

/-- Spec-side little-endian value: the plain base-256 sum. -/
def byteSum : List Nat → Nat
  | [] => 0
  | b :: rest => b + 256 * byteSum rest

/-- Key bit-level fact: OR-ing a value below `2 ^ k` with a multiple of
`2 ^ k` is plain addition (the operands occupy disjoint bit ranges). -/
theorem lor_mul_two_pow (k b x : Nat) (hb : b < 2 ^ k) :
    b ||| (x * 2 ^ k) = b + x * 2 ^ k := by
  apply Nat.eq_of_testBit_eq
  intro i
  rw [Nat.testBit_lor]
  rcases Nat.lt_or_ge i k with hik | hik
  · have hxk : Nat.testBit (x * 2 ^ k) i = false := by
      rw [← Nat.shiftLeft_eq, Nat.testBit_shiftLeft]
      simp [Nat.not_le.mpr hik]
    rw [hxk, Bool.or_false]
    rw [Nat.testBit_to_div_mod, Nat.testBit_to_div_mod]
    have hsplit : x * 2 ^ k = x * 2 ^ (k - i - 1) * 2 * 2 ^ i := by
      rw [Nat.mul_assoc, Nat.mul_assoc, ← Nat.pow_succ']
      rw [← pow_add]
      congr 2
      omega
    rw [hsplit, Nat.add_mul_div_right _ _ (Nat.two_pow_pos i),
      Nat.add_mul_mod_self_right]
  · have hbi : Nat.testBit b i = false :=
      Nat.testBit_lt_two_pow
        (Nat.lt_of_lt_of_le hb (Nat.pow_le_pow_right (by norm_num) hik))
    rw [hbi, Bool.false_or]
    rw [← Nat.shiftLeft_eq, Nat.testBit_shiftLeft, Nat.shiftLeft_eq]
    have hge : decide (i ≥ k) = true := by simp [hik]
    rw [hge, Bool.true_and]
    rw [Nat.testBit_to_div_mod, Nat.testBit_to_div_mod]
    have hdiv : (b + x * 2 ^ k) / 2 ^ i = x / 2 ^ (i - k) := by
      have hik' : 2 ^ i = 2 ^ k * 2 ^ (i - k) := by
        rw [← pow_add]
        congr 1
        omega
      rw [hik', ← Nat.div_div_eq_div_mul,
        Nat.add_mul_div_right _ _ (Nat.two_pow_pos k),
        Nat.div_eq_of_lt hb, Nat.zero_add]
    rw [hdiv]

/-- On bytes the OR-accumulating reader computes the base-256 sum. -/
theorem readLE_eq_byteSum (l : List Nat) (hl : ∀ b ∈ l, b < 256) :
    readLE l = byteSum l := by
  induction l with
  | nil => rfl
  | cons b rest ih =>
    have hb : b < 256 := hl b (List.mem_cons_self b rest)
    have hrest : ∀ x ∈ rest, x < 256 := fun x hx => hl x (List.mem_cons_of_mem b hx)
    show b ||| (readLE rest <<< 8) = b + 256 * byteSum rest
    rw [Nat.shiftLeft_eq, lor_mul_two_pow 8 b (readLE rest) hb, ih hrest]
    ring

/-- The base-256 sum of `n` bytes is below `2 ^ (8 * n)`. -/
theorem byteSum_lt (l : List Nat) (hl : ∀ b ∈ l, b < 256) :
    byteSum l < 2 ^ (8 * l.length) := by
  induction l with
  | nil => simp [byteSum]
  | cons b rest ih =>
    have hb : b < 256 := hl b (List.mem_cons_self b rest)
    have hrest : ∀ x ∈ rest, x < 256 := fun x hx => hl x (List.mem_cons_of_mem b hx)
    have h := ih hrest
    show b + 256 * byteSum rest < 2 ^ (8 * (rest.length + 1))
    have hpow : 2 ^ (8 * (rest.length + 1)) = 256 * 2 ^ (8 * rest.length) := by
      rw [Nat.mul_add, Nat.mul_one, pow_add]
      ring
    rw [hpow]
    omega

/-- Appending a high byte adds its value at the top of the base-256 sum. -/
theorem byteSum_append_last (l : List Nat) (b : Nat) :
    byteSum (l ++ [b]) = byteSum l + b * 2 ^ (8 * l.length) := by
  induction l with
  | nil => simp [byteSum]
  | cons c rest ih =>
    show c + 256 * byteSum (rest ++ [b]) = c + 256 * byteSum rest + b * 2 ^ (8 * (rest.length + 1))
    rw [ih]
    have hpow : 2 ^ (8 * (rest.length + 1)) = 2 ^ (8 * rest.length) * 256 := by
      rw [Nat.mul_add, Nat.mul_one, pow_add]
      ring
    rw [hpow]
    ring

/-- The top bit of the highest byte decides whether the base-256 sum of a
nonempty byte list reaches the half-range `2 ^ (8 * n - 1)`. -/
theorem byteSum_half_range (l : List Nat) (b : Nat) (hl : ∀ x ∈ l, x < 256)
    (hb : b < 256) :
    (128 ≤ b ↔ 2 ^ (8 * (l ++ [b]).length - 1) ≤ byteSum (l ++ [b])) := by
  rw [byteSum_append_last]
  have hlen : 8 * (l ++ [b]).length - 1 = 8 * l.length + 7 := by
    simp only [List.length_append, List.length_cons, List.length_nil]
    omega
  rw [hlen, pow_add]
  have hlow := byteSum_lt l hl
  have hpos := Nat.two_pow_pos (8 * l.length)
  constructor
  · intro h
    have : 128 * 2 ^ (8 * l.length) ≤ b * 2 ^ (8 * l.length) :=
      Nat.mul_le_mul_right _ h
    calc 2 ^ (8 * l.length) * 2 ^ 7 = 128 * 2 ^ (8 * l.length) := by ring
    _ ≤ b * 2 ^ (8 * l.length) := this
    _ ≤ byteSum l + b * 2 ^ (8 * l.length) := Nat.le_add_left _ _
  · intro h
    by_contra hlt
    push_neg at hlt
    have hb' : b ≤ 127 := by omega
    have : byteSum l + b * 2 ^ (8 * l.length) < 128 * 2 ^ (8 * l.length) := by
      have h1 : b * 2 ^ (8 * l.length) ≤ 127 * 2 ^ (8 * l.length) :=
        Nat.mul_le_mul_right _ hb'
      omega
    have h2 : (2 : Nat) ^ (8 * l.length) * 2 ^ 7 = 128 * 2 ^ (8 * l.length) := by ring
    omega

/-- Little-endian re-encoding of a value into a fixed number of bytes, the
reference encoder for the run-list format of §4.3.1. -/
def toLEBytes : Nat → Nat → List Nat
  | 0, _ => []
  | n + 1, v => v % 256 :: toLEBytes n (v / 256)

theorem toLEBytes_length (n v : Nat) : (toLEBytes n v).length = n := by
  induction n generalizing v with
  | zero => rfl
  | succ n ih => simp [toLEBytes, ih]

theorem toLEBytes_lt (n v : Nat) : ∀ b ∈ toLEBytes n v, b < 256 := by
  induction n generalizing v with
  | zero => simp [toLEBytes]
  | succ n ih =>
    intro b hb
    simp only [toLEBytes, List.mem_cons] at hb
    rcases hb with h | h
    · omega
    · exact ih (v / 256) b h

theorem byteSum_toLEBytes (n v : Nat) (hv : v < 2 ^ (8 * n)) :
    byteSum (toLEBytes n v) = v := by
  induction n generalizing v with
  | zero =>
    simp only [Nat.mul_zero, pow_zero, Nat.lt_one_iff] at hv
    simp [toLEBytes, byteSum, hv]
  | succ n ih =>
    show v % 256 + 256 * byteSum (toLEBytes n (v / 256)) = v
    have hdiv : v / 256 < 2 ^ (8 * n) := by
      apply Nat.div_lt_of_lt_mul
      have : (256 : Nat) * 2 ^ (8 * n) = 2 ^ (8 * (n + 1)) := by
        rw [Nat.mul_add, Nat.mul_one, pow_add]
        ring
      omega
    rw [ih (v / 256) hdiv]
    omega

/-- Signed variable-width little-endian decoder, from `ReadSignedValue`:
accumulate `size` bytes into a 64-bit register, and when `size < 8` and the
top bit of the highest byte is set, OR in the pattern of `-1LL << (size*8)`
(which on a 64-bit machine is `2 ^ 64 - 2 ^ (8*size)`).  The register is
then read as a signed value. -/
def readSignedValue (data : List Nat) (size : Nat) : Int :=
  if size = 0 ∨ 8 < size then 0
  else
    let bytes := data.take size
    let u := readLE bytes
    let bits :=
      if size < 8 ∧ bytes.getLastD 0 &&& 128 ≠ 0 then
        u ||| ((2 ^ 64 - 1) <<< (8 * size)) % 2 ^ 64
      else u
    toSigned64 bits

/-- Mathematical two's-complement interpretation of an `n`-byte unsigned
value, the reference reading of the claim. -/
def twosComplement (u n : Nat) : Int :=
  if u < 2 ^ (8 * n - 1) then (u : Int) else (u : Int) - 2 ^ (8 * n)

theorem and_128_ne_zero_iff (b : Nat) (hb : b < 256) :
    (b &&& 128 ≠ 0 ↔ 128 ≤ b) := by
  have h : b &&& 2 ^ 7 = (Nat.testBit b 7).toNat * 2 ^ 7 := Nat.and_two_pow b 7
  have ht : Nat.testBit b 7 = decide (b / 2 ^ 7 % 2 = 1) := Nat.testBit_to_div_mod
  constructor
  · intro hne
    by_contra hlt
    push_neg at hlt
    have hdiv : b / 2 ^ 7 = 0 := Nat.div_eq_of_lt (by norm_num; omega)
    rw [ht, hdiv] at h
    simp at h
    exact hne (by omega)
  · intro hge
    have hdiv : b / 2 ^ 7 = 1 := by
      have : (2 : Nat) ^ 7 = 128 := by norm_num
      rw [this]
      omega
    rw [ht, hdiv] at h
    simp at h
    omega

/-- The mask `-1LL << k` as a 64-bit pattern is `2 ^ 64 - 2 ^ k`. -/
theorem mask_pattern (k : Nat) (hk : k ≤ 64) :
    ((2 ^ 64 - 1) <<< k) % 2 ^ 64 = 2 ^ 64 - 2 ^ k := by
  rw [Nat.shiftLeft_eq]
  have hB : (2 : Nat) ^ k ≤ 2 ^ 64 := Nat.pow_le_pow_right (by norm_num) hk
  have hB1 : 1 ≤ (2 : Nat) ^ k := Nat.one_le_two_pow
  have hsplit : (2 ^ 64 - 1) * 2 ^ k = 2 ^ 64 - 2 ^ k + (2 ^ k - 1) * 2 ^ 64 := by
    have h1 : (2 ^ 64 - 1) * 2 ^ k = 2 ^ 64 * 2 ^ k - 2 ^ k := by
      rw [Nat.sub_mul, Nat.one_mul]
    have h2 : (2 ^ k - 1) * 2 ^ 64 = 2 ^ k * 2 ^ 64 - 2 ^ 64 := by
      rw [Nat.sub_mul, Nat.one_mul]
    have h3 : (2 : Nat) ^ 64 * 2 ^ k = 2 ^ k * 2 ^ 64 := Nat.mul_comm _ _
    have h4 : (2 : Nat) ^ 64 ≤ 2 ^ k * 2 ^ 64 := Nat.le_mul_of_pos_left _ hB1
    omega
  rw [hsplit, Nat.add_mul_mod_self_right, Nat.mod_eq_of_lt (by omega)]

/-- The signed decoder agrees with the mathematical two's-complement
reading of its input bytes, for every width 1..8. -/
theorem readSignedValue_eq_twosComplement (data : List Nat) (size : Nat)
    (hlen : data.length = size) (h1 : 1 ≤ size) (h8 : size ≤ 8)
    (hb : ∀ b ∈ data, b < 256) :
    readSignedValue data size = twosComplement (byteSum data) size := by
  rcases List.eq_nil_or_concat data with hnil | ⟨l, b, hdata⟩
  · subst hnil
    simp at hlen
    omega
  rw [List.concat_eq_append] at hdata
  have hguard : ¬ (size = 0 ∨ 8 < size) := by omega
  have htake : data.take size = data := by
    rw [← hlen]
    exact List.take_length data
  have hlast : data.getLastD 0 = b := by rw [hdata]; simp
  have hbb : b < 256 := hb b (by rw [hdata]; simp)
  have hlb : ∀ x ∈ l, x < 256 := by
    intro x hx
    exact hb x (by rw [hdata]; simp [hx])
  have hread : readLE data = byteSum data := readLE_eq_byteSum data hb
  have hu_lt : byteSum data < 2 ^ (8 * size) := by
    rw [← hlen]
    exact byteSum_lt data hb
  have hhalf : (128 ≤ b ↔ 2 ^ (8 * data.length - 1) ≤ byteSum data) := by
    rw [hdata]
    exact byteSum_half_range l b hlb hbb
  rw [hlen] at hhalf
  unfold readSignedValue
  rw [if_neg hguard]
  simp only [htake, hlast, hread]
  rcases Nat.lt_or_ge size 8 with hs8 | hs8
  · rcases Nat.lt_or_ge b 128 with hbtop | hbtop
    · have hcond : ¬ (size < 8 ∧ b &&& 128 ≠ 0) := by
        rintro ⟨-, hand⟩
        exact absurd ((and_128_ne_zero_iff b hbb).mp hand) (by omega)
      rw [if_neg hcond]
      have hsmall : byteSum data < 2 ^ (8 * size - 1) := by
        by_contra hge
        push_neg at hge
        exact absurd (hhalf.mpr hge) (by omega)
      have h63 : byteSum data < 2 ^ 63 := by
        calc byteSum data < 2 ^ (8 * size - 1) := hsmall
        _ ≤ 2 ^ 63 := Nat.pow_le_pow_right (by norm_num) (by omega)
      rw [toSigned64, if_pos h63, twosComplement, if_pos hsmall]
    · have hcond : size < 8 ∧ b &&& 128 ≠ 0 :=
        ⟨hs8, (and_128_ne_zero_iff b hbb).mpr hbtop⟩
      rw [if_pos hcond]
      have hk : 8 * size ≤ 64 := by omega
      rw [mask_pattern (8 * size) hk]
      have hkle : (2 : Nat) ^ (8 * size) ≤ 2 ^ 64 := Nat.pow_le_pow_right (by norm_num) hk
      have hmask : 2 ^ 64 - 2 ^ (8 * size) = (2 ^ (64 - 8 * size) - 1) * 2 ^ (8 * size) := by
        rw [Nat.sub_mul, Nat.one_mul, ← pow_add]
        congr 2
        omega
      rw [hmask, lor_mul_two_pow (8 * size) _ _ hu_lt, ← hmask]
      have hbig : ¬ (byteSum data + (2 ^ 64 - 2 ^ (8 * size)) < 2 ^ 63) := by
        have hle : (2 : Nat) ^ (8 * size) ≤ 2 ^ 56 := Nat.pow_le_pow_right (by norm_num) (by omega)
        have h56 : (2 : Nat) ^ 56 ≤ 2 ^ 63 := by norm_num
        have h64 : (2 : Nat) ^ 63 + 2 ^ 63 = 2 ^ 64 := by norm_num
        omega
      rw [toSigned64, if_neg hbig]
      have hge : 2 ^ (8 * size - 1) ≤ byteSum data := hhalf.mp hbtop
      rw [twosComplement, if_neg (by omega)]
      have hcast : ((byteSum data + (2 ^ 64 - 2 ^ (8 * size)) : Nat) : Int)
          = (byteSum data : Int) + 2 ^ 64 - 2 ^ (8 * size) := by
        rw [Nat.cast_add, Nat.cast_sub hkle]
        push_cast
        ring
      rw [hcast]
      ring
  · have hsize : size = 8 := by omega
    subst hsize
    have hcond : ¬ ((8 : Nat) < 8 ∧ b &&& 128 ≠ 0) := by omega
    rw [if_neg hcond]
    rw [toSigned64, twosComplement]

/-- Two's-complement decode undoes the `mod 2 ^ (8n)` encode of an in-range
signed value. -/
theorem twosComplement_emod (n : Nat) (d : Int) (h1 : 1 ≤ n)
    (hlo : -(2 ^ (8 * n - 1)) ≤ d) (hhi : d < 2 ^ (8 * n - 1)) :
    twosComplement (d % (2 : Int) ^ (8 * n)).toNat n = d := by
  have hM : (2 : Int) ^ (8 * n) = 2 * 2 ^ (8 * n - 1) := by
    rw [← pow_succ']
    congr 1
    omega
  have hHpos : (0 : Int) < 2 ^ (8 * n - 1) := by positivity
  have hMpos : (0 : Int) < 2 ^ (8 * n) := by positivity
  have hmod_nonneg : 0 ≤ d % 2 ^ (8 * n) := Int.emod_nonneg d (by omega)
  have hmod_lt : d % 2 ^ (8 * n) < 2 ^ (8 * n) := Int.emod_lt_of_pos d hMpos
  have hcast : ((d % 2 ^ (8 * n)).toNat : Int) = d % 2 ^ (8 * n) :=
    Int.toNat_of_nonneg hmod_nonneg
  have hval : d % 2 ^ (8 * n) = if 0 ≤ d then d else d + 2 ^ (8 * n) := by
    split
    · exact Int.emod_eq_of_lt (by assumption) (by omega)
    · have hshift : (d + 2 ^ (8 * n) * 1) % 2 ^ (8 * n) = d % 2 ^ (8 * n) :=
        Int.add_mul_emod_self_left d _ 1
      rw [Int.mul_one] at hshift
      rw [← hshift]
      exact Int.emod_eq_of_lt (by omega) (by omega)
  have hhn : ((2 ^ (8 * n - 1) : Nat) : Int) = 2 ^ (8 * n - 1) := by push_cast; rfl
  unfold twosComplement
  split
  case isTrue h =>
    have hI : d % 2 ^ (8 * n) < (2 : Int) ^ (8 * n - 1) := by
      rw [← hcast, ← hhn]
      exact_mod_cast h
    rw [hcast]
    rw [hval] at hI ⊢
    split at hI
    · rw [if_pos (by assumption)]
    · omega
  case isFalse h =>
    have hI : (2 : Int) ^ (8 * n - 1) ≤ d % 2 ^ (8 * n) := by
      rw [← hcast, ← hhn]
      exact_mod_cast Nat.le_of_not_lt h
    rw [hcast]
    rw [hval] at hI ⊢
    split at hI
    · omega
    · rw [if_neg (by assumption)]
      ring

/-- A decoded data run: starting virtual cluster, absolute logical cluster,
cluster count, and the sparse flag, as in `struct DataRunSegment`. -/
structure DataRunSegment where
  vcnStart : Int
  lcn : Int
  length : Int
  sparse : Bool
deriving DecidableEq

/-- The run-list decoding loop of `ParseRunList`, with the remaining byte
count of the region as structural fuel (each iteration consumes at least
one byte, so `bytes.length` steps always suffice).  Each record is one
header byte (low nibble: length field width, high nibble: offset field
width), the unsigned run length, and the signed LCN delta; decoding stops
at a zero header byte, a zero-width length field, or a field overrunning
the region.  The `long long` run-length register is modelled by its 64-bit
pattern read as signed. -/
def parseRunListGo (vcn lcn : Int) : Nat → List Nat → List DataRunSegment
  | 0, _ => []
  | _ + 1, [] => []
  | fuel + 1, hb :: rest =>
    if hb = 0 then []
    else
      let lengthFieldSize := hb &&& 15
      let offsetFieldSize := (hb >>> 4) &&& 15
      if lengthFieldSize = 0 ∨ rest.length < lengthFieldSize + offsetFieldSize then []
      else
        let runLength := toSigned64 (readLE (rest.take lengthFieldSize) % 2 ^ 64)
        let runOffset := readSignedValue (rest.drop lengthFieldSize) offsetFieldSize
        { vcnStart := vcn, lcn := lcn + runOffset, length := runLength,
          sparse := decide (offsetFieldSize = 0) } ::
          parseRunListGo (vcn + runLength) (lcn + runOffset) fuel
            (rest.drop (lengthFieldSize + offsetFieldSize))

/-- Decode the run-list region of a non-resident attribute, starting the
running VCN at `LowestVcn` and the running LCN at 0. -/
def parseRunList (bytes : List Nat) (lowestVcn : Int) : List DataRunSegment :=
  parseRunListGo lowestVcn 0 bytes.length bytes

/-- A hand-authored `(lengthClusters, signedDelta)` pair together with its
chosen field widths, the input of the §4.3.1 reference encoder. -/
structure RunPair where
  len : Nat
  delta : Int
  lenSize : Nat
  offSize : Nat
deriving DecidableEq

/-- Well-formedness of a hand-authored pair: widths of 1..8 bytes (0 offset
bytes marking a sparse run with delta 0), the length fitting its field and
the signed 64-bit range, the delta fitting its field as two's complement. -/
def validRunPair (p : RunPair) : Prop :=
  1 ≤ p.lenSize ∧ p.lenSize ≤ 8 ∧ p.offSize ≤ 8 ∧
    p.len < 2 ^ (8 * p.lenSize) ∧ p.len < 2 ^ 63 ∧
    (if p.offSize = 0 then p.delta = 0
     else -(2 ^ (8 * p.offSize - 1)) ≤ p.delta ∧ p.delta < 2 ^ (8 * p.offSize - 1))

instance (p : RunPair) : Decidable (validRunPair p) := by
  unfold validRunPair
  infer_instance

/-- Reference encoder for one run record per §4.3.1: header byte with the
offset width in the high nibble and the length width in the low nibble,
then the little-endian length, then the two's-complement delta. -/
def encodeRunPair (p : RunPair) : List Nat :=
  (16 * p.offSize + p.lenSize) :: toLEBytes p.lenSize p.len
    ++ toLEBytes p.offSize (p.delta % (2 : Int) ^ (8 * p.offSize)).toNat

/-- Reference encoder for a whole run list, terminated by a zero byte. -/
def encodeRunList (ps : List RunPair) : List Nat :=
  (ps.map encodeRunPair).flatten ++ [0]

/-- The claim's description of the decoded list: each emitted segment has
`lcn` equal to the running sum of all deltas so far, `length` the encoded
cluster count, `sparse` exactly when the offset width nibble is 0, the
first `vcnStart` equal to `LowestVcn`, and each next `vcnStart` advanced
by the previous length. -/
def expectedRuns (vcn lcn : Int) : List RunPair → List DataRunSegment
  | [] => []
  | p :: ps =>
    { vcnStart := vcn, lcn := lcn + p.delta, length := (p.len : Int),
      sparse := decide (p.offSize = 0) } ::
      expectedRuns (vcn + (p.len : Int)) (lcn + p.delta) ps

/-- Reading a signed field only consumes its `size` bytes; trailing bytes
of the region are ignored. -/
theorem readSignedValue_truncates (data : List Nat) (size : Nat) :
    readSignedValue data size = readSignedValue (data.take size) size := by
  unfold readSignedValue
  rw [List.take_take, Nat.min_self]

theorem take_append_exact {α : Type} (l₁ l₂ : List α) (n : Nat)
    (h : l₁.length = n) : (l₁ ++ l₂).take n = l₁ := by
  subst h
  exact List.take_left l₁ l₂

theorem drop_append_exact {α : Type} (l₁ l₂ : List α) (n : Nat)
    (h : l₁.length = n) : (l₁ ++ l₂).drop n = l₂ := by
  subst h
  exact List.drop_left l₁ l₂

theorem emod_two_pow_toNat_lt (d : Int) (k : Nat) :
    (d % (2 : Int) ^ k).toNat < 2 ^ k := by
  have h1 : 0 ≤ d % (2 : Int) ^ k := Int.emod_nonneg d (by positivity)
  have h2 : d % (2 : Int) ^ k < 2 ^ k := Int.emod_lt_of_pos d (by positivity)
  have h3 : ((2 : Int) ^ k) = ((2 ^ k : Nat) : Int) := by push_cast; rfl
  rw [h3] at h2
  omega

/-- One encoded record decodes to its pair and the loop continues on the
remaining encoded bytes. -/
theorem parseRunListGo_encode (ps : List RunPair) (vcn lcn : Int) (fuel : Nat)
    (hval : ∀ p ∈ ps, validRunPair p)
    (hfuel : (encodeRunList ps).length ≤ fuel) :
    parseRunListGo vcn lcn fuel (encodeRunList ps) = expectedRuns vcn lcn ps := by
  induction ps generalizing vcn lcn fuel with
  | nil =>
    have henc : encodeRunList [] = [0] := rfl
    rw [henc] at hfuel ⊢
    obtain ⟨f, rfl⟩ : ∃ f, fuel = f + 1 := ⟨fuel - 1, by simp at hfuel; omega⟩
    simp [parseRunListGo, expectedRuns]
  | cons p ps ih =>
    have hp : validRunPair p := hval p (List.mem_cons_self p ps)
    obtain ⟨hl1, hl8, ho8, hlenfit, hlen63, hdelta⟩ := hp
    have hvalrest : ∀ q ∈ ps, validRunPair q := fun q hq => hval q (List.mem_cons_of_mem p hq)
    have henc : encodeRunList (p :: ps)
        = (16 * p.offSize + p.lenSize) ::
          ((toLEBytes p.lenSize p.len
            ++ toLEBytes p.offSize (p.delta % (2 : Int) ^ (8 * p.offSize)).toNat)
            ++ encodeRunList ps) := by
      simp [encodeRunList, encodeRunPair, List.flatten_cons, List.append_assoc]
    rw [henc] at hfuel ⊢
    obtain ⟨f, rfl⟩ : ∃ f, fuel = f + 1 := ⟨fuel - 1, by simp at hfuel; omega⟩
    have hnib1 : (16 * p.offSize + p.lenSize) &&& 15 = p.lenSize := by
      rw [show (15 : Nat) = 2 ^ 4 - 1 from rfl, Nat.and_pow_two_sub_one_eq_mod]
      omega
    have hnib2 : ((16 * p.offSize + p.lenSize) >>> 4) &&& 15 = p.offSize := by
      rw [Nat.shiftRight_eq_div_pow,
        show (15 : Nat) = 2 ^ 4 - 1 from rfl, Nat.and_pow_two_sub_one_eq_mod]
      have h16 : (2 : Nat) ^ 4 = 16 := by norm_num
      rw [h16]
      omega
    simp only [parseRunListGo]
    rw [hnib1, hnib2]
    rw [if_neg (by omega)]
    have hlenB : (toLEBytes p.lenSize p.len).length = p.lenSize := toLEBytes_length _ _
    have hoffB : (toLEBytes p.offSize (p.delta % (2 : Int) ^ (8 * p.offSize)).toNat).length
        = p.offSize := toLEBytes_length _ _
    have hcond : ¬ (p.lenSize = 0 ∨
        ((toLEBytes p.lenSize p.len
          ++ toLEBytes p.offSize (p.delta % (2 : Int) ^ (8 * p.offSize)).toNat)
          ++ encodeRunList ps).length < p.lenSize + p.offSize) := by
      simp only [List.length_append, hlenB, hoffB]
      omega
    rw [if_neg hcond]
    have hassoc : (toLEBytes p.lenSize p.len
          ++ toLEBytes p.offSize (p.delta % (2 : Int) ^ (8 * p.offSize)).toNat)
          ++ encodeRunList ps
        = toLEBytes p.lenSize p.len
          ++ (toLEBytes p.offSize (p.delta % (2 : Int) ^ (8 * p.offSize)).toNat
            ++ encodeRunList ps) := List.append_assoc _ _ _
    have htake : ((toLEBytes p.lenSize p.len
          ++ toLEBytes p.offSize (p.delta % (2 : Int) ^ (8 * p.offSize)).toNat)
          ++ encodeRunList ps).take p.lenSize = toLEBytes p.lenSize p.len := by
      rw [hassoc]
      exact take_append_exact _ _ _ hlenB
    have hdropLen : ((toLEBytes p.lenSize p.len
          ++ toLEBytes p.offSize (p.delta % (2 : Int) ^ (8 * p.offSize)).toNat)
          ++ encodeRunList ps).drop p.lenSize
        = toLEBytes p.offSize (p.delta % (2 : Int) ^ (8 * p.offSize)).toNat
          ++ encodeRunList ps := by
      rw [hassoc]
      exact drop_append_exact _ _ _ hlenB
    have hdropAll : ((toLEBytes p.lenSize p.len
          ++ toLEBytes p.offSize (p.delta % (2 : Int) ^ (8 * p.offSize)).toNat)
          ++ encodeRunList ps).drop (p.lenSize + p.offSize) = encodeRunList ps :=
      drop_append_exact _ _ _ (by simp [hlenB, hoffB])
    rw [htake, hdropLen, hdropAll]
    have hrunLength : toSigned64 (readLE (toLEBytes p.lenSize p.len) % 2 ^ 64)
        = (p.len : Int) := by
      rw [readLE_eq_byteSum _ (toLEBytes_lt _ _), byteSum_toLEBytes _ _ hlenfit,
        Nat.mod_eq_of_lt (by calc p.len < 2 ^ 63 := hlen63
          _ < 2 ^ 64 := by norm_num)]
      rw [toSigned64, if_pos hlen63]
    have hrunOffset : readSignedValue
        (toLEBytes p.offSize (p.delta % (2 : Int) ^ (8 * p.offSize)).toNat
          ++ encodeRunList ps) p.offSize = p.delta := by
      rcases Nat.eq_zero_or_pos p.offSize with h0 | hpos
      · rw [readSignedValue, if_pos (Or.inl h0)]
        simp [h0] at hdelta
        omega
      · rw [readSignedValue_truncates,
          take_append_exact _ _ _ hoffB,
          readSignedValue_eq_twosComplement _ _ hoffB hpos ho8 (toLEBytes_lt _ _),
          byteSum_toLEBytes _ _ (emod_two_pow_toNat_lt _ _)]
        rw [if_neg (by omega)] at hdelta
        exact twosComplement_emod p.offSize p.delta hpos hdelta.1 hdelta.2
    rw [hrunLength, hrunOffset]
    have hfrec : (encodeRunList ps).length ≤ f := by
      simp only [List.length_cons, List.length_append, hlenB, hoffB] at hfuel
      omega
    rw [ih _ _ f hvalrest hfrec]
    rfl

/-- Decoding an encoded run list, top level. -/
theorem parseRunList_encode (ps : List RunPair) (lowestVcn : Int)
    (hval : ∀ p ∈ ps, validRunPair p) :
    parseRunList (encodeRunList ps) lowestVcn = expectedRuns lowestVcn 0 ps :=
  parseRunListGo_encode ps lowestVcn 0 _ hval (Nat.le_refl _)

theorem expectedRuns_head (vcn lcn : Int) (ps : List RunPair) (s : DataRunSegment)
    (h : (expectedRuns vcn lcn ps)[0]? = some s) : s.vcnStart = vcn := by
  cases ps with
  | nil => simp [expectedRuns] at h
  | cons p ps =>
    simp only [expectedRuns, List.getElem?_cons_zero, Option.some_inj] at h
    rw [← h]

theorem expectedRuns_chain (ps : List RunPair) (vcn lcn : Int) (i : Nat)
    (s₁ s₂ : DataRunSegment)
    (h₁ : (expectedRuns vcn lcn ps)[i]? = some s₁)
    (h₂ : (expectedRuns vcn lcn ps)[i + 1]? = some s₂) :
    s₂.vcnStart = s₁.vcnStart + s₁.length := by
  induction ps generalizing vcn lcn i with
  | nil => simp [expectedRuns] at h₁
  | cons p ps ih =>
    cases i with
    | zero =>
      simp only [expectedRuns, List.getElem?_cons_zero, Option.some_inj] at h₁
      simp only [expectedRuns, List.getElem?_cons_succ] at h₂
      have hhead := expectedRuns_head _ _ ps s₂ h₂
      rw [hhead, ← h₁]
    | succ j =>
      simp only [expectedRuns, List.getElem?_cons_succ] at h₁ h₂
      exact ih _ _ j h₁ h₂

theorem expectedRuns_mem_length (ps : List RunPair) (vcn lcn : Int)
    (s : DataRunSegment) (h : s ∈ expectedRuns vcn lcn ps) :
    ∃ p ∈ ps, s.length = (p.len : Int) := by
  induction ps generalizing vcn lcn with
  | nil => simp [expectedRuns] at h
  | cons p ps ih =>
    simp only [expectedRuns, List.mem_cons] at h
    rcases h with h | h
    · exact ⟨p, List.mem_cons_self p ps, by rw [h]⟩
    · obtain ⟨q, hq, hlen⟩ := ih _ _ h
      exact ⟨q, List.mem_cons_of_mem p hq, hlen⟩

/-- C2: for every well-formed encoded sequence of `(lengthClusters,
signedDelta)` pairs, the decoder yields segments whose `lcn` is the running
sum of deltas, whose `length` is the encoded cluster count, whose `sparse`
flag is set exactly when the offset width nibble is 0 (with delta 0 there),
and whose `vcnStart` values start at `LowestVcn` and advance by each run's
length (all of which `expectedRuns` states). -/
theorem runlist_decoder_roundtrip (ps : List RunPair) (lowestVcn : Int)
    (hval : ∀ p ∈ ps, validRunPair p) :
    parseRunList (encodeRunList ps) lowestVcn = expectedRuns lowestVcn 0 ps
      ∧ (∀ s, (parseRunList (encodeRunList ps) lowestVcn)[0]? = some s →
          s.vcnStart = lowestVcn)
      ∧ ∀ i s₁ s₂, (parseRunList (encodeRunList ps) lowestVcn)[i]? = some s₁ →
          (parseRunList (encodeRunList ps) lowestVcn)[i + 1]? = some s₂ →
          s₂.vcnStart = s₁.vcnStart + s₁.length := by
  have hmain := parseRunList_encode ps lowestVcn hval
  refine ⟨hmain, ?_, ?_⟩
  · intro s hs
    rw [hmain] at hs
    exact expectedRuns_head _ _ ps s hs
  · intro i s₁ s₂ h₁ h₂
    rw [hmain] at h₁ h₂
    exact expectedRuns_chain ps _ _ i s₁ s₂ h₁ h₂

/-- Witness: the spec's §8 example, runs `(3, +1000)` then sparse `(2, 0)`,
decodes to the expected two segments. -/
theorem runlist_decoder_roundtrip_witness :
    parseRunList (encodeRunList [⟨3, 1000, 1, 2⟩, ⟨2, 0, 1, 0⟩]) 0
      = expectedRuns 0 0 [⟨3, 1000, 1, 2⟩, ⟨2, 0, 1, 0⟩]
    ∧ expectedRuns 0 0 [⟨3, 1000, 1, 2⟩, ⟨2, 0, 1, 0⟩]
      = [⟨0, 1000, 3, false⟩, ⟨3, 1000, 2, true⟩] :=
  ⟨(runlist_decoder_roundtrip [⟨3, 1000, 1, 2⟩, ⟨2, 0, 1, 0⟩] 0 (by decide)).1,
    by decide⟩

/-- C6 counterexample: the decoder accepts an encoded run whose length
value is 0 (header `0x11`, length byte `0x00`, offset byte `0x05`) and
emits a segment of length 0, so not every emitted segment has strictly
positive length. -/
theorem runlist_zero_length_counterexample :
    ¬ (∀ s ∈ parseRunList [17, 0, 5, 0] 0, 0 < s.length) := by decide

/-- C6 amended: every segment the decoder emits for a well-formed run list
whose encoded length values are all strictly positive has strictly positive
length. -/
theorem runlist_positive_lengths (ps : List RunPair) (lowestVcn : Int)
    (hval : ∀ p ∈ ps, validRunPair p) (hpos : ∀ p ∈ ps, 0 < p.len) :
    ∀ s ∈ parseRunList (encodeRunList ps) lowestVcn, 0 < s.length := by
  intro s hs
  rw [parseRunList_encode ps lowestVcn hval] at hs
  obtain ⟨p, hp, hlen⟩ := expectedRuns_mem_length ps _ _ s hs
  rw [hlen]
  exact_mod_cast hpos p hp

/-- Witness: a one-run list with length 2 and delta −3 decodes to one
segment and that segment's length is positive. -/
theorem runlist_positive_lengths_witness :
    parseRunList (encodeRunList [⟨2, -3, 1, 1⟩]) 0 = [⟨0, -3, 2, false⟩]
    ∧ 0 < (DataRunSegment.mk 0 (-3) 2 false).length :=
  ⟨by decide,
    runlist_positive_lengths [⟨2, -3, 1, 1⟩] 0 (by decide) (by decide)
      ⟨0, -3, 2, false⟩ (by decide)⟩

/-- C9: for every width 1..8, the signed decoder returns the mathematical
two's-complement value of its little-endian input bytes. -/
theorem readSignedValue_twos_complement (data : List Nat) (size : Nat)
    (hlen : data.length = size) (h1 : 1 ≤ size) (h8 : size ≤ 8)
    (hb : ∀ b ∈ data, b < 256) :
    readSignedValue data size = twosComplement (byteSum data) size :=
  readSignedValue_eq_twosComplement data size hlen h1 h8 hb

/-- Witness: the claim's three concrete decodes, the first obtained through
the theorem at bytes `FF FF`. -/
theorem readSignedValue_twos_complement_witness :
    readSignedValue [255, 255] 2 = -1
    ∧ readSignedValue [0, 128] 2 = -32768
    ∧ readSignedValue [127] 1 = 127 := by
  refine ⟨?_, by decide, by decide⟩
  have h := readSignedValue_twos_complement [255, 255] 2 (by decide) (by decide)
    (by decide) (by decide)
  rw [h]
  decide

/-! ## Data-run recovery writer (`DataRunRecoveryWorker::Execute`)

The volume is a total byte oracle `vol : Nat → Nat` (offset to byte), so
open/seek/read/write failures are out of the model; the buffered chunk
loops are modelled by their net effect (`toCopy` bytes per run).  The
64-bit products `run.length * clusterSize` and `run.lcn * clusterSize`
are reduced modulo `2 ^ 64` as on the machine. -/

/-- Bytes contributed by a single run: zeros when the run is sparse or its
LCN is non-positive, otherwise the volume bytes from the seek target
`lcn * clusterSize` (as a 64-bit product). -/
def runChunk (vol : Nat → Nat) (clusterSize : Nat) (r : DataRunSegment)
    (toCopy : Nat) : List Nat :=
  if r.sparse ∨ r.lcn ≤ 0 then List.replicate toCopy 0
  else (List.range toCopy).map (fun i => vol ((r.lcn.toNat * clusterSize) % 2 ^ 64 + i))

/-- The recovery loop: stop when `remaining` hits 0, skip runs of
non-positive length, copy `min(runBytes, remaining)` per run, and after the
run list pad with zero bytes until `remaining` is exhausted. -/
def recoverGo (vol : Nat → Nat) (clusterSize : Nat) :
    List DataRunSegment → Nat → List Nat
  | [], remaining => List.replicate remaining 0
  | r :: rs, remaining =>
    if remaining = 0 then []
    else if r.length ≤ 0 then recoverGo vol clusterSize rs remaining
    else
      let toCopy := min ((r.length.toNat * clusterSize) % 2 ^ 64) remaining
      runChunk vol clusterSize r toCopy ++
        recoverGo vol clusterSize rs (remaining - toCopy)

/-- Output bytes of a successful `recoverDataRuns`. -/
def recoverDataRuns (vol : Nat → Nat) (clusterSize : Nat)
    (runs : List DataRunSegment) (fileSize : Nat) : List Nat :=
  recoverGo vol clusterSize runs fileSize

/-- The claim's chunk: volume bytes from byte offset `lcn * clusterSize`
(exact product), zeros for sparse or non-positive-LCN runs. -/
def claimChunk (vol : Nat → Nat) (clusterSize : Nat) (r : DataRunSegment)
    (toCopy : Nat) : List Nat :=
  if r.sparse ∨ r.lcn ≤ 0 then List.replicate toCopy 0
  else (List.range toCopy).map (fun i => vol (r.lcn.toNat * clusterSize + i))

/-- The claim's description of the output: in run order over runs with
positive length, `min(length * clusterSize, remaining)` bytes per run
(exact product), followed by zero padding up to `fileSize`. -/
def claimContent (vol : Nat → Nat) (clusterSize : Nat) :
    List DataRunSegment → Nat → List Nat
  | [], remaining => List.replicate remaining 0
  | r :: rs, remaining =>
    if r.length ≤ 0 then claimContent vol clusterSize rs remaining
    else
      let toCopy := min (r.length.toNat * clusterSize) remaining
      claimChunk vol clusterSize r toCopy ++
        claimContent vol clusterSize rs (remaining - toCopy)

theorem runChunk_length (vol : Nat → Nat) (cs : Nat) (r : DataRunSegment)
    (t : Nat) : (runChunk vol cs r t).length = t := by
  unfold runChunk
  split <;> simp

/-- The recovery loop always produces exactly `remaining` bytes. -/
theorem recoverGo_length (vol : Nat → Nat) (cs : Nat)
    (rs : List DataRunSegment) (remaining : Nat) :
    (recoverGo vol cs rs remaining).length = remaining := by
  induction rs generalizing remaining with
  | nil => simp [recoverGo]
  | cons r rs ih =>
    rw [recoverGo]
    split
    · simp [*]
    · split
      · exact ih remaining
      · simp only [List.length_append, runChunk_length, ih]
        omega

theorem claimContent_zero (vol : Nat → Nat) (cs : Nat)
    (rs : List DataRunSegment) : claimContent vol cs rs 0 = [] := by
  induction rs with
  | nil => simp [claimContent]
  | cons r rs ih =>
    rw [claimContent]
    split
    · exact ih
    · simp only [Nat.min_zero, Nat.sub_zero]
      rw [ih]
      unfold claimChunk
      split <;> simp

/-- Without 64-bit overflow of the per-run products, the code's output is
the claim's content. -/
theorem recoverGo_eq_claimContent (vol : Nat → Nat) (cs : Nat)
    (rs : List DataRunSegment) (remaining : Nat)
    (hofl : ∀ r ∈ rs, 0 < r.length →
      r.length.toNat * cs < 2 ^ 64 ∧ r.lcn.toNat * cs < 2 ^ 64) :
    recoverGo vol cs rs remaining = claimContent vol cs rs remaining := by
  induction rs generalizing remaining with
  | nil => rfl
  | cons r rs ih =>
    have hrest : ∀ q ∈ rs, 0 < q.length →
        q.length.toNat * cs < 2 ^ 64 ∧ q.lcn.toNat * cs < 2 ^ 64 :=
      fun q hq => hofl q (List.mem_cons_of_mem r hq)
    rw [recoverGo, claimContent]
    rcases Nat.eq_zero_or_pos remaining with h0 | hpos
    · subst h0
      rw [if_pos rfl]
      split
      · rw [claimContent_zero]
      · simp only [Nat.min_zero, Nat.sub_zero]
        rw [claimContent_zero]
        unfold claimChunk
        split <;> simp
    · rw [if_neg (by omega)]
      split
      · exact ih remaining hrest
      · have hr := hofl r (List.mem_cons_self r rs) (by omega)
        dsimp only
        rw [Nat.mod_eq_of_lt hr.1, ih _ hrest]
        congr 1
        unfold runChunk claimChunk
        split
        · rfl
        · rw [Nat.mod_eq_of_lt hr.2]

/-- C1 amended: for positive cluster size and file size, and runs whose
64-bit byte products do not overflow, a successful recovery writes exactly
`fileSize` bytes whose content is the claim's per-run description. -/
theorem recover_output_content (vol : Nat → Nat) (clusterSize : Nat)
    (runs : List DataRunSegment) (fileSize : Nat)
    (hcs : 0 < clusterSize) (hfs : 0 < fileSize)
    (hofl : ∀ r ∈ runs, 0 < r.length →
      r.length.toNat * clusterSize < 2 ^ 64
        ∧ r.lcn.toNat * clusterSize < 2 ^ 64) :
    recoverDataRuns vol clusterSize runs fileSize
        = claimContent vol clusterSize runs fileSize
      ∧ (recoverDataRuns vol clusterSize runs fileSize).length = fileSize :=
  ⟨recoverGo_eq_claimContent vol clusterSize runs fileSize hofl,
    recoverGo_length vol clusterSize runs fileSize⟩

/-- Witness: one data run of one cluster at LCN 2, cluster size 4, file
size 6 — four volume bytes then two zero-padding bytes. -/
theorem recover_output_content_witness :
    recoverDataRuns (fun i => i % 256) 4 [⟨0, 2, 1, false⟩] 6
        = claimContent (fun i => i % 256) 4 [⟨0, 2, 1, false⟩] 6
      ∧ (recoverDataRuns (fun i => i % 256) 4 [⟨0, 2, 1, false⟩] 6).length = 6
      ∧ recoverDataRuns (fun i => i % 256) 4 [⟨0, 2, 1, false⟩] 6
        = [8, 9, 10, 11, 0, 0] :=
  ⟨(recover_output_content (fun i => i % 256) 4 [⟨0, 2, 1, false⟩] 6
      (by decide) (by decide) (by decide)).1,
    (recover_output_content (fun i => i % 256) 4 [⟨0, 2, 1, false⟩] 6
      (by decide) (by decide) (by decide)).2,
    by decide⟩

/-- C1 counterexample: with `length = 2 ^ 32` clusters and
`clusterSize = 2 ^ 32`, the 64-bit product `length * clusterSize` wraps to
0, so the run contributes nothing and the output is all padding, while the
claim's `min(length * clusterSize, remaining)` maps 5 volume bytes. -/
theorem recover_output_content_counterexample :
    recoverDataRuns (fun _ => 7) (2 ^ 32) [⟨0, 1, 2 ^ 32, false⟩] 5
        = [0, 0, 0, 0, 0]
      ∧ claimContent (fun _ => 7) (2 ^ 32) [⟨0, 1, 2 ^ 32, false⟩] 5
        = [7, 7, 7, 7, 7]
      ∧ recoverDataRuns (fun _ => 7) (2 ^ 32) [⟨0, 1, 2 ^ 32, false⟩] 5
        ≠ claimContent (fun _ => 7) (2 ^ 32) [⟨0, 1, 2 ^ 32, false⟩] 5 := by
  refine ⟨by decide, by decide, ?_⟩
  intro h
  rw [show recoverDataRuns (fun _ => 7) (2 ^ 32) [⟨0, 1, 2 ^ 32, false⟩] 5
      = [0, 0, 0, 0, 0] from by decide,
    show claimContent (fun _ => 7) (2 ^ 32) [⟨0, 1, 2 ^ 32, false⟩] 5
      = [7, 7, 7, 7, 7] from by decide] at h
  simp at h

/-- C10: the recovery writer never consults the `vcn` field — two run
lists that agree on `lcn`, `length`, and `sparse` produce identical
output bytes. -/
theorem recover_vcn_independent (vol : Nat → Nat) (clusterSize fileSize : Nat)
    (runs₁ runs₂ : List DataRunSegment)
    (h : runs₁.map (fun r => (r.lcn, r.length, r.sparse))
        = runs₂.map (fun r => (r.lcn, r.length, r.sparse))) :
    recoverDataRuns vol clusterSize runs₁ fileSize
      = recoverDataRuns vol clusterSize runs₂ fileSize := by
  unfold recoverDataRuns
  induction runs₁ generalizing runs₂ fileSize with
  | nil =>
    have h2 : runs₂ = [] := by
      cases runs₂ with
      | nil => rfl
      | cons q qs => simp at h
    rw [h2]
  | cons r rs ih =>
    cases runs₂ with
    | nil => simp at h
    | cons q qs =>
      simp only [List.map_cons, List.cons.injEq, Prod.mk.injEq] at h
      obtain ⟨⟨hlcn, hlen, hsp⟩, hrest⟩ := h
      have hchunk : ∀ t, runChunk vol clusterSize r t = runChunk vol clusterSize q t := by
        intro t
        unfold runChunk
        rw [hlcn, hsp]
      rw [recoverGo, recoverGo, ← hlen]
      split
      · rfl
      · split
        · exact ih fileSize qs hrest
        · dsimp only
          rw [ih _ qs hrest, hchunk]

/-- Witness: two singleton run lists that differ only in `vcn` (0 vs 99)
give the same recovered bytes. -/
theorem recover_vcn_independent_witness :
    recoverDataRuns (fun i => i % 256) 4 [⟨0, 3, 1, false⟩] 6
      = recoverDataRuns (fun i => i % 256) 4 [⟨99, 3, 1, false⟩] 6 :=
  recover_vcn_independent (fun i => i % 256) 4 6
    [⟨0, 3, 1, false⟩] [⟨99, 3, 1, false⟩] (by decide)

/-! ## Numeric-string parsing in the host bridge (`TryParseUnsigned`) -/

/-- Whitespace characters skipped by `strtoull` in the C locale. -/
def isSpaceC (c : Char) : Bool :=
  c == ' ' || c == '\t' || c == '\n' || c == '\x0b' || c == '\x0c' || c == '\r'

/-- Model of `std::stoull(input, &idx, 10)`: skip C whitespace, consume an
optional single `+` or `-` sign, then consume decimal digits.  Returns the
parsed 64-bit value and the index just past the last digit consumed;
`none` models a thrown exception (`invalid_argument` when no digits were
consumed, `out_of_range` when the magnitude exceeds the unsigned 64-bit
range).  A minus sign negates the value modulo `2 ^ 64`, as `strtoull`
specifies. -/
def stoullModel (s : List Char) : Option (Nat × Nat) :=
  let ws := s.takeWhile isSpaceC
  let afterWs := s.dropWhile isSpaceC
  let signLen := if afterWs.head? = some '-' ∨ afterWs.head? = some '+' then 1 else 0
  let digits := (afterWs.drop signLen).takeWhile Char.isDigit
  if digits.isEmpty then none
  else
    let mag := digits.foldl (fun acc c => acc * 10 + (c.toNat - 48)) 0
    if 2 ^ 64 ≤ mag then none
    else
      some (if afterWs.head? = some '-' then (2 ^ 64 - mag) % 2 ^ 64 else mag,
        ws.length + signLen + digits.length)

/-- `TryParseUnsigned`: the parse succeeds exactly when `stoull` returned
normally and consumed the whole string (`idx == input.size()`). -/
def tryParseUnsigned (s : List Char) : Option Nat :=
  match stoullModel s with
  | none => none
  | some (v, idx) => if idx = s.length then some v else none

/-- The outcome of the `RecoverDataRuns` bridge validation for string-typed
`clusterSize` and `fileSize` arguments: a failed parse raises a TypeError
(InvalidArgument) before the recovery worker is ever queued. -/
inductive SizeArgsResult where
  | invalidClusterSize
  | invalidFileSize
  | ok (clusterSize fileSize : Nat)
deriving DecidableEq

/-- Validation in `RecoverDataRuns` for string `clusterSize` and
`fileSize` arguments, in argument order. -/
def parseSizeArgs (clusterSizeStr fileSizeStr : List Char) : SizeArgsResult :=
  match tryParseUnsigned clusterSizeStr with
  | none => .invalidClusterSize
  | some c =>
    match tryParseUnsigned fileSizeStr with
    | none => .invalidFileSize
    | some f => .ok c f

/-- The claim's notion of input shape: the decimal representation of a
non-negative integer (one or more digits and nothing else). -/
def isDecimalNat (s : List Char) : Bool :=
  !s.isEmpty && s.all Char.isDigit

/-- The shape of strings `stoull`-based parsing actually accepts: optional
C whitespace, an optional single sign, then one or more decimal digits
running to the end of the string, with magnitude below `2 ^ 64`. -/
def stoullAccepted (s : List Char) : Prop :=
  let afterWs := s.dropWhile isSpaceC
  let signLen := if afterWs.head? = some '-' ∨ afterWs.head? = some '+' then 1 else 0
  let afterSign := afterWs.drop signLen
  afterSign ≠ [] ∧ afterSign.all Char.isDigit
    ∧ afterSign.foldl (fun acc c => acc * 10 + (c.toNat - 48)) 0 < 2 ^ 64

instance (s : List Char) : Decidable (stoullAccepted s) := by
  unfold stoullAccepted
  infer_instance

theorem head_some_one_le {α : Type} (l : List α) (c : α) (h : l.head? = some c) :
    1 ≤ l.length := by
  cases l with
  | nil => simp at h
  | cons a t => simp

theorem takeWhile_length_le {α : Type} (p : α → Bool) (l : List α) :
    (l.takeWhile p).length ≤ l.length := by
  induction l with
  | nil => simp
  | cons c t ih =>
    rw [List.takeWhile_cons]
    split <;> simp <;> omega

theorem all_of_takeWhile_length_eq {α : Type} (p : α → Bool) (l : List α)
    (h : (l.takeWhile p).length = l.length) : ∀ x ∈ l, p x = true := by
  induction l with
  | nil => simp
  | cons c t ih =>
    rw [List.takeWhile_cons] at h
    by_cases hc : p c
    · rw [if_pos hc] at h
      simp only [List.length_cons, Nat.add_right_cancel_iff] at h
      intro x hx
      rcases List.mem_cons.mp hx with rfl | hx
      · exact hc
      · exact ih h x hx
    · rw [if_neg hc] at h
      simp at h

/-- C7 counterexample: `"-5"` is not the decimal representation of a
non-negative integer, yet `TryParseUnsigned` accepts it — `stoull` consumes
the minus sign and wraps, returning `2 ^ 64 − 5` — so `recoverDataRuns`
proceeds instead of failing with InvalidArgument. -/
theorem tryParseUnsigned_minus_counterexample :
    isDecimalNat ['-', '5'] = false
    ∧ tryParseUnsigned ['-', '5'] = some 18446744073709551611
    ∧ parseSizeArgs ['-', '5'] ['1', '0'] = .ok 18446744073709551611 10 := by
  refine ⟨by decide, by decide, by decide⟩

/-- C7 amended: the parser is a total function returning tagged
success/failure; it fails exactly on strings that are not optional
whitespace, an optional single sign, and one or more digits to the end of
the string with magnitude below `2 ^ 64` — and a failed `clusterSize` or
`fileSize` parse surfaces as an InvalidArgument result before any recovery
is performed. -/
theorem tryParseUnsigned_failure (s : List Char) :
    (tryParseUnsigned s = none ↔ ¬ stoullAccepted s)
    ∧ (tryParseUnsigned s = none →
        ∀ other, parseSizeArgs s other = .invalidClusterSize)
    ∧ (tryParseUnsigned s = none →
        ∀ other v, tryParseUnsigned other = some v →
          parseSizeArgs other s = .invalidFileSize) := by
  refine ⟨?_, ?_, ?_⟩
  · unfold tryParseUnsigned stoullModel stoullAccepted
    dsimp only
    have hWA : (s.takeWhile isSpaceC).length + (s.dropWhile isSpaceC).length
        = s.length := by
      rw [← List.length_append, List.takeWhile_append_dropWhile]
    set A := s.dropWhile isSpaceC with hA
    set signLen := (if A.head? = some '-' ∨ A.head? = some '+' then 1 else 0) with hsign
    set AS := A.drop signLen with hAS
    set D := AS.takeWhile Char.isDigit with hD
    have hsle : signLen ≤ A.length := by
      rw [hsign]
      split
      · rename_i hp
        rcases hp with hx | hx <;> exact head_some_one_le A _ hx
      · exact Nat.zero_le _
    have hASlen : AS.length = A.length - signLen := by
      rw [hAS, List.length_drop]
    have hDle : D.length ≤ AS.length := takeWhile_length_le _ _
    have hidx : ((s.takeWhile isSpaceC).length + signLen + D.length = s.length)
        ↔ D.length = AS.length := by omega
    by_cases hDnil : D.isEmpty
    · rw [if_pos hDnil]
      have hDnil' : D = [] := List.isEmpty_iff.mp hDnil
      constructor
      · rintro -
        rintro ⟨hne, hall, -⟩
        apply hne
        have hDAS : D = AS := by
          rw [hD, List.takeWhile_eq_self_iff]
          exact List.all_eq_true.mp hall
        rw [← hDAS, hDnil']
      · rintro -
        rfl
    · rw [if_neg hDnil]
      have hDne : D ≠ [] := fun h => hDnil (by rw [h]; rfl)
      by_cases hovf : 2 ^ 64 ≤ D.foldl (fun acc c => acc * 10 + (c.toNat - 48)) 0
      · rw [if_pos hovf]
        constructor
        · rintro -
          rintro ⟨hne, hall, hlt⟩
          have hDAS : D = AS := by
            rw [hD, List.takeWhile_eq_self_iff]
            exact List.all_eq_true.mp hall
          rw [hDAS] at hovf
          omega
        · rintro -
          rfl
      · rw [if_neg hovf]
        dsimp only
        by_cases hall : AS.all Char.isDigit
        · have hDAS : D = AS := by
            rw [hD, List.takeWhile_eq_self_iff]
            exact List.all_eq_true.mp hall
          have hfull : (s.takeWhile isSpaceC).length + signLen + D.length
              = s.length := hidx.mpr (by rw [hDAS])
          rw [if_pos hfull]
          constructor
          · intro h
            exact Option.noConfusion h
          · intro hna
            exfalso
            exact hna ⟨by rw [← hDAS]; exact hDne, hall, by rw [← hDAS]; omega⟩
        · have hlen_ne : ¬ ((s.takeWhile isSpaceC).length + signLen + D.length
              = s.length) := by
            rw [hidx]
            intro hlen
            exact hall (List.all_eq_true.mpr
              (all_of_takeWhile_length_eq Char.isDigit AS hlen))
          rw [if_neg hlen_ne]
          constructor
          · rintro -
            rintro ⟨-, hall', -⟩
            exact hall hall'
          · rintro -
            rfl
  · intro hnone other
    unfold parseSizeArgs
    rw [hnone]
  · intro hnone other v hother
    unfold parseSizeArgs
    rw [hother, hnone]

/-- Witness: `"5x"` has trailing junk, is rejected, and surfaces as an
invalid cluster size. -/
theorem tryParseUnsigned_failure_witness :
    tryParseUnsigned ['5', 'x'] = none
    ∧ parseSizeArgs ['5', 'x'] ['7'] = .invalidClusterSize := by
  have h := tryParseUnsigned_failure ['5', 'x']
  have hn : tryParseUnsigned ['5', 'x'] = none := h.1.mpr (by decide)
  exact ⟨hn, h.2.1 hn ['7']⟩

/-! ## MFT file-record parser (`ParseFileRecord`) and result shaping
(`FileRecordWorker::OnOK`)

The record buffer is a `List Nat` of bytes; the packed-struct field reads
become little-endian reads at the struct offsets (`FileRecordHeader` is 48
bytes, `AttributeRecordHeader` with its non-resident body 72 bytes). -/

/-- Little-endian unsigned field of `n` bytes at byte offset `off`. -/
def bufLE (buf : List Nat) (off n : Nat) : Nat :=
  readLE ((buf.drop off).take n)

/-- `AttributeTypeToString`. -/
def attributeTypeToString (t : Nat) : String :=
  if t = 0x10 then "StandardInformation"
  else if t = 0x20 then "AttributeList"
  else if t = 0x30 then "FileName"
  else if t = 0x40 then "ObjectId"
  else if t = 0x50 then "SecurityDescriptor"
  else if t = 0x60 then "VolumeName"
  else if t = 0x70 then "VolumeInformation"
  else if t = 0x80 then "Data"
  else if t = 0x90 then "IndexRoot"
  else if t = 0xA0 then "IndexAllocation"
  else if t = 0xB0 then "Bitmap"
  else if t = 0xC0 then "ReparsePoint"
  else if t = 0xD0 then "EAInformation"
  else if t = 0xE0 then "EA"
  else if t = 0xF0 then "PropertySet"
  else if t = 0x100 then "LoggedUtilityStream"
  else "Unknown"

/-- One parsed attribute, as in `struct AttributeInfo`; the attribute
(stream) name is kept as its UTF-16 code units. -/
structure AttributeInfo where
  type : Nat
  typeName : String
  nonResident : Bool
  name : List Nat
  dataSize : Nat
  allocatedSize : Nat
  runs : List DataRunSegment
  residentData : List Nat
deriving DecidableEq

/-- UTF-16 code units: `n` 16-bit little-endian units at `off`. -/
def readUtf16Units (buf : List Nat) (off n : Nat) : List Nat :=
  (List.range n).map (fun i => bufLE buf (off + 2 * i) 2)

/-- `ExtractAttributeName`: `NameLength` UTF-16 units at `NameOffset`. -/
def extractAttributeName (buf : List Nat) (off : Nat) : List Nat :=
  if bufLE buf (off + 9) 1 = 0 then []
  else readUtf16Units buf (off + bufLE buf (off + 10) 2) (bufLE buf (off + 9) 1)

/-- Decode one attribute record at offset `off`: resident attributes get
their value bytes (when in bounds and non-empty), non-resident attributes
get their decoded run list; `LowestVcn` is read as a signed 64-bit value. -/
def mkAttributeInfo (buf : List Nat) (off : Nat) : AttributeInfo :=
  let typ := bufLE buf off 4
  let len := bufLE buf (off + 4) 4
  if bufLE buf (off + 8) 1 ≠ 0 then
    { type := typ
      typeName := attributeTypeToString typ
      nonResident := true
      name := extractAttributeName buf off
      dataSize := bufLE buf (off + 48) 8
      allocatedSize := bufLE buf (off + 40) 8
      runs := parseRunList
        ((buf.drop (off + bufLE buf (off + 32) 2)).take (len - bufLE buf (off + 32) 2))
        (toSigned64 (bufLE buf (off + 16) 8))
      residentData := [] }
  else
    { type := typ
      typeName := attributeTypeToString typ
      nonResident := false
      name := extractAttributeName buf off
      dataSize := bufLE buf (off + 16) 4
      allocatedSize := bufLE buf (off + 16) 4
      runs := []
      residentData :=
        if bufLE buf (off + 20) 2 + bufLE buf (off + 16) 4 ≤ len
            ∧ 0 < bufLE buf (off + 16) 4 then
          (buf.drop (off + bufLE buf (off + 20) 2)).take (bufLE buf (off + 16) 4)
        else [] }

/-- The attribute walk: starting at `FirstAttributeOffset`, stop on the
`0xFFFFFFFF` terminator, a zero `Length`, an attribute overrunning the
record, or fewer than `sizeof(AttributeRecordHeader)` bytes remaining.
Each step advances by at least one byte, so `buf.length` steps of fuel
always suffice. -/
def parseAttributesGo (buf : List Nat) : Nat → Nat → List AttributeInfo
  | _, 0 => []
  | off, fuel + 1 =>
    if off + 72 ≤ buf.length then
      let typ := bufLE buf off 4
      let len := bufLE buf (off + 4) 4
      if typ = 0xFFFFFFFF ∨ len = 0 then []
      else if buf.length < off + len then []
      else mkAttributeInfo buf off :: parseAttributesGo buf (off + len) fuel
    else []

/-- Parsed record-level details, as in `struct FileRecordDetails` (the
cluster-geometry fields are filled in later by the worker from the volume
query, not by the parser). -/
structure FileRecordDetails where
  inUse : Bool
  isDirectory : Bool
  baseReference : Nat
  hardLinkCount : Nat
  flags : Nat
  attributes : List AttributeInfo
deriving DecidableEq

/-- `ParseFileRecord`: validate the buffer size and the `FILE` magic, read
the record-level fields, and walk the attributes. -/
def parseFileRecord (buf : List Nat) : Option FileRecordDetails :=
  if buf.length < 48 then none
  else if bufLE buf 0 4 ≠ 0x454C4946 then none
  else some
    { inUse := decide (bufLE buf 22 2 &&& 1 ≠ 0)
      isDirectory := decide (bufLE buf 22 2 &&& 2 ≠ 0)
      baseReference := bufLE buf 32 8
      hardLinkCount := bufLE buf 18 2
      flags := bufLE buf 22 2
      attributes := parseAttributesGo buf (bufLE buf 20 2) buf.length }

/-- `Base64Encode` with the standard alphabet. -/
def base64Alphabet : List Char :=
  "ABCDEFGHIJKLMNOPQRSTUVWXYZabcdefghijklmnopqrstuvwxyz0123456789+/".data

/-- `Base64Encode`: three input bytes become four alphabet characters;
a final group of one or two bytes is padded with `=`. -/
def base64Encode : List Nat → List Char
  | b0 :: b1 :: b2 :: rest =>
    let triple := (b0 <<< 16) ||| (b1 <<< 8) ||| b2
    base64Alphabet.getD ((triple >>> 18) &&& 63) 'A'
      :: base64Alphabet.getD ((triple >>> 12) &&& 63) 'A'
      :: base64Alphabet.getD ((triple >>> 6) &&& 63) 'A'
      :: base64Alphabet.getD (triple &&& 63) 'A'
      :: base64Encode rest
  | [b0, b1] =>
    let triple := (b0 <<< 16) ||| (b1 <<< 8)
    [base64Alphabet.getD ((triple >>> 18) &&& 63) 'A',
      base64Alphabet.getD ((triple >>> 12) &&& 63) 'A',
      base64Alphabet.getD ((triple >>> 6) &&& 63) 'A', '=']
  | [b0] =>
    let triple := b0 <<< 16
    [base64Alphabet.getD ((triple >>> 18) &&& 63) 'A',
      base64Alphabet.getD ((triple >>> 12) &&& 63) 'A', '=', '=']
  | [] => []

/-- Which of the per-attribute payload keys `FileRecordWorker::OnOK`
emits: `runs` when the decoded run list is non-empty, otherwise
`residentDataBase64` when the resident payload is non-empty, otherwise
neither key. -/
inductive AttrPayload where
  | runsField (runs : List DataRunSegment)
  | residentField (base64 : List Char)
  | neitherField
deriving DecidableEq

/-- The `if (!attr.runs.empty()) ... else if (!attr.residentData.empty())`
emission logic of `FileRecordWorker::OnOK`. -/
def attrEmitted (a : AttributeInfo) : AttrPayload :=
  if a.runs ≠ [] then .runsField a.runs
  else if a.residentData ≠ [] then .residentField (base64Encode a.residentData)
  else .neitherField

/-- Every parsed attribute is resident with an empty run list or
non-resident with an empty resident payload. -/
theorem mkAttributeInfo_invariant (buf : List Nat) (off : Nat) :
    ((mkAttributeInfo buf off).nonResident = true
        ∧ (mkAttributeInfo buf off).residentData = [])
    ∨ ((mkAttributeInfo buf off).nonResident = false
        ∧ (mkAttributeInfo buf off).runs = []) := by
  unfold mkAttributeInfo
  dsimp only
  split
  · left
    exact ⟨rfl, rfl⟩
  · right
    exact ⟨rfl, rfl⟩

theorem parseAttributesGo_mem (buf : List Nat) (off fuel : Nat)
    (a : AttributeInfo) (h : a ∈ parseAttributesGo buf off fuel) :
    ∃ o, a = mkAttributeInfo buf o := by
  induction fuel generalizing off with
  | zero => simp [parseAttributesGo] at h
  | succ fuel ih =>
    rw [parseAttributesGo] at h
    dsimp only at h
    split at h
    · split at h
      · simp at h
      · split at h
        · simp at h
        · rcases List.mem_cons.mp h with rfl | h
          · exact ⟨off, rfl⟩
          · exact ih _ h
    · simp at h

/-- C3 counterexample: a record with one non-resident attribute whose run
list region starts with the terminator byte — the decoded run list is
empty, `OnOK` emits neither `runs` nor `residentDataBase64`, so `runs` is
not present for this non-resident attribute and neither field is present. -/
def c3Buffer : List Nat :=
  [0x46, 0x49, 0x4C, 0x45] ++ List.replicate 16 0 ++ [48, 0]
    ++ List.replicate 26 0
    ++ [0x80, 0, 0, 0] ++ [80, 0, 0, 0] ++ [1, 0] ++ [0, 0] ++ [0, 0] ++ [0, 0]
    ++ List.replicate 16 0 ++ [72, 0] ++ List.replicate 6 0
    ++ List.replicate 32 0 ++ List.replicate 8 0

set_option maxRecDepth 10000 in
/-- C3 counterexample: parsing `c3Buffer` succeeds with one attribute that
is non-resident yet gets neither `runs` nor `residentDataBase64`. -/
theorem attr_payload_presence_counterexample :
    (parseFileRecord c3Buffer).map
        (fun d => d.attributes.map (fun a => (a.nonResident, attrEmitted a)))
      = some [(true, AttrPayload.neitherField)]
    ∧ ¬ (∀ a ∈ ((parseFileRecord c3Buffer).map FileRecordDetails.attributes).getD [],
          a.nonResident = true → attrEmitted a = AttrPayload.runsField a.runs) := by
  exact ⟨by decide, by decide⟩

/-- C3 amended: for every attribute of a successfully parsed record, at
most one of the two payload keys is present — `runs` exactly when the
decoded run list is non-empty (which only happens for non-resident
attributes), `residentDataBase64` exactly when the run list is empty and
the resident payload non-empty (which only happens for resident
attributes); a non-resident attribute with an empty run list and a
resident attribute with an empty payload get neither key. -/
theorem attr_payload_presence (buf : List Nat) (d : FileRecordDetails)
    (hparse : parseFileRecord buf = some d)
    (a : AttributeInfo) (ha : a ∈ d.attributes) :
    (attrEmitted a = AttrPayload.runsField a.runs ↔ a.runs ≠ [])
    ∧ (attrEmitted a = AttrPayload.residentField (base64Encode a.residentData)
        ↔ a.runs = [] ∧ a.residentData ≠ [])
    ∧ (a.runs ≠ [] → a.nonResident = true)
    ∧ (a.residentData ≠ [] → a.nonResident = false) := by
  have hattrs : ∃ o, a = mkAttributeInfo buf o := by
    unfold parseFileRecord at hparse
    split at hparse
    · exact absurd hparse (by simp)
    · split at hparse
      · exact absurd hparse (by simp)
      · have hd := Option.some_inj.mp hparse
        rw [← hd] at ha
        exact parseAttributesGo_mem buf _ _ a ha
  obtain ⟨o, rfl⟩ := hattrs
  have hinv := mkAttributeInfo_invariant buf o
  unfold attrEmitted
  by_cases hr : (mkAttributeInfo buf o).runs = []
  · rw [if_neg (by simp [hr])]
    by_cases hres : (mkAttributeInfo buf o).residentData = []
    · rw [if_neg (by simp [hres])]
      refine ⟨?_, ?_, ?_, ?_⟩
      · simp [hr]
      · simp [hres]
      · intro h
        exact absurd hr h
      · intro h
        exact absurd hres h
    · rw [if_pos hres]
      refine ⟨?_, ?_, ?_, ?_⟩
      · constructor
        · intro h
          exact absurd h (by simp)
        · intro h
          exact absurd hr h
      · simp [hr, hres]
      · intro h
        exact absurd hr h
      · rintro -
        rcases hinv with ⟨-, hand⟩ | ⟨hflag, -⟩
        · exact absurd hand hres
        · exact hflag
  · rw [if_pos hr]
    refine ⟨?_, ?_, ?_, ?_⟩
    · simp [hr]
    · constructor
      · intro h
        exact absurd h (by simp)
      · rintro ⟨h, -⟩
        exact absurd h hr
    · rintro -
      rcases hinv with ⟨hflag, -⟩ | ⟨-, hand⟩
      · exact hflag
      · exact absurd hand hr
    · intro hres
      rcases hinv with ⟨-, hand⟩ | ⟨hflag, -⟩
      · exact absurd hand hres
      · exact hflag

/-- A record with one resident `$FILE_NAME`-typed attribute carrying the
4-byte payload `01 02 03 04`. -/
def c3ResBuffer : List Nat :=
  [0x46, 0x49, 0x4C, 0x45] ++ List.replicate 16 0 ++ [48, 0]
    ++ List.replicate 26 0
    ++ [0x30, 0, 0, 0] ++ [32, 0, 0, 0] ++ [0, 0] ++ [0, 0] ++ [0, 0] ++ [0, 0]
    ++ [4, 0, 0, 0] ++ [24, 0] ++ [0, 0]
    ++ [1, 2, 3, 4] ++ List.replicate 4 0
    ++ List.replicate 48 0

/-- The details `parseFileRecord` produces for `c3ResBuffer`. -/
def c3ResDetails : FileRecordDetails :=
  { inUse := false, isDirectory := false, baseReference := 0,
    hardLinkCount := 0, flags := 0,
    attributes := [mkAttributeInfo c3ResBuffer 48] }

set_option maxRecDepth 10000 in
/-- Witness: the resident attribute of `c3ResBuffer` is emitted as
`residentDataBase64` (and only that), per the amended claim. -/
theorem attr_payload_presence_witness :
    (attrEmitted (mkAttributeInfo c3ResBuffer 48)
        = AttrPayload.residentField (base64Encode (mkAttributeInfo c3ResBuffer 48).residentData)
      ↔ (mkAttributeInfo c3ResBuffer 48).runs = []
          ∧ (mkAttributeInfo c3ResBuffer 48).residentData ≠ [])
    ∧ (mkAttributeInfo c3ResBuffer 48).runs = []
    ∧ (mkAttributeInfo c3ResBuffer 48).residentData = [1, 2, 3, 4]
    ∧ base64Encode [1, 2, 3, 4] = ['A', 'Q', 'I', 'D', 'B', 'A', '=', '='] :=
  ⟨(attr_payload_presence c3ResBuffer c3ResDetails (by decide)
      (mkAttributeInfo c3ResBuffer 48) (by decide)).2.1,
    by decide, by decide, by decide⟩

/-! ## USN journal scanner (`ScanUsnWorker::Execute`)

A journal batch is its raw bytes; the 8-byte next-FRN header precedes the
packed `USN_RECORD_V2` entries (`RecordLength` at offset 0, FRN at 8,
parent FRN at 16, `TimeStamp` at 32, `Reason` at 40, `FileAttributes` at
52, `FileNameLength` at 56, `FileName` at 60; `sizeof(USN_RECORD_V2)` is
64).  File names stay as UTF-16 code units: the `WideCharToMultiByte`
conversion is an OS call outside the model. -/

/-- `ASCII toupper`/`towupper` for the drive letter. -/
def toUpperAscii (c : Char) : Char :=
  if 'a' ≤ c ∧ c ≤ 'z' then Char.ofNat (c.toNat - 32) else c

/-- A file-table entry built during the scan, as in `struct FileEntry`. -/
structure FileEntry where
  parentRef : Nat
  name : List Nat
  isDirectory : Bool
deriving DecidableEq

/-- A deleted-file record, as in `struct DeletedRecord`. -/
structure UsnDeletedRecord where
  fileRef : Nat
  parentRef : Nat
  name : List Nat
  isDirectory : Bool
  timestampMs : Int
  reason : Nat
deriving DecidableEq

/-- The state the enumeration loop threads: the `StartFileReferenceNumber`
of the next request, the file table, and the deleted records so far. -/
structure ScanState where
  startFrn : Nat
  fileTable : Nat → Option FileEntry
  deleted : List UsnDeletedRecord

/-- `FileTimeToUnixMilliseconds`: 100 ns ticks since 1601 to Unix
milliseconds, with C truncating division. -/
def fileTimeToUnixMilliseconds (ticks : Int) : Int :=
  Int.tdiv ticks 10000 - 11644473600000

/-- The record loop over one batch's record bytes: stop when fewer than
`sizeof(USN_RECORD_V2)` bytes remain or `RecordLength` is 0 or overruns
the batch; otherwise enter the record into the file table (last write
wins) and, when `Reason` has `USN_REASON_FILE_DELETE` (0x200), append a
deleted record.  Each record consumes at least one byte, so the byte count
serves as fuel. -/
def parseUsnRecordsGo :
    Nat → List Nat → (Nat → Option FileEntry) → List UsnDeletedRecord →
      (Nat → Option FileEntry) × List UsnDeletedRecord
  | 0, _, table, deleted => (table, deleted)
  | fuel + 1, bytes, table, deleted =>
    if bytes.length < 64 then (table, deleted)
    else
      let recLen := bufLE bytes 0 4
      if recLen = 0 ∨ bytes.length < recLen then (table, deleted)
      else
        let fileRef := bufLE bytes 8 8
        let parentRef := bufLE bytes 16 8
        let name := readUtf16Units bytes 60 (bufLE bytes 56 2 / 2)
        let isDir := decide (bufLE bytes 52 4 &&& 0x10 ≠ 0)
        let reason := bufLE bytes 40 4
        let table' : Nat → Option FileEntry :=
          fun k => if k = fileRef then some ⟨parentRef, name, isDir⟩ else table k
        let deleted' :=
          if reason &&& 0x200 ≠ 0 then
            deleted ++ [⟨fileRef, parentRef, name, isDir,
              fileTimeToUnixMilliseconds (toSigned64 (bufLE bytes 32 8)), reason⟩]
          else deleted
        parseUsnRecordsGo fuel (bytes.drop recLen) table' deleted'

/-- One iteration of the enumeration loop on a returned batch: a batch of
at most 8 bytes is skipped with `continue` (which also skips the
`StartFileReferenceNumber` update); a larger batch is parsed and the next
start FRN is taken from its 8-byte header. -/
def processBatch (s : ScanState) (batch : List Nat) : ScanState :=
  if batch.length ≤ 8 then s
  else
    let rest := batch.drop 8
    let out := parseUsnRecordsGo rest.length rest s.fileTable s.deleted
    { startFrn := bufLE batch 0 8, fileTable := out.1, deleted := out.2 }

/-- C4 counterexample: an 8-byte batch carrying next-FRN 7 leaves the
start FRN at its previous value 0 — the `continue` skips the
`med.StartFileReferenceNumber = *nextUsn` update, so the next request is
re-issued with the old FRN, not the advanced one. -/
theorem scan_empty_batch_counterexample :
    (processBatch ⟨0, fun _ => none, []⟩ [7, 0, 0, 0, 0, 0, 0, 0]).startFrn = 0
    ∧ bufLE [7, 0, 0, 0, 0, 0, 0, 0] 0 8 = 7
    ∧ (0 : Nat) ≠ 7 :=
  ⟨rfl, by decide, by decide⟩

/-- C4 amended: a batch whose `bytesReturned` is at most 8 is treated as
empty and the next journal request is re-issued with the *unchanged*
start FRN — the whole enumeration state is left untouched. -/
theorem scan_empty_batch (s : ScanState) (batch : List Nat)
    (h : batch.length ≤ 8) : processBatch s batch = s := by
  unfold processBatch
  rw [if_pos h]

/-- Witness: a 3-byte batch leaves the state `⟨5, ∅, []⟩` unchanged. -/
theorem scan_empty_batch_witness :
    processBatch ⟨5, fun _ => none, []⟩ [1, 2, 3] = ⟨5, fun _ => none, []⟩ :=
  scan_empty_batch ⟨5, fun _ => none, []⟩ [1, 2, 3] (by decide)

/-- Raw-volume device path built by `ScanUsnWorker::Execute`: the string
literal `L"\\.\\"` unescapes to the three characters `\.\`. -/
def scanVolumePath (drive : Char) : List Char :=
  ['\\', '.', '\\'] ++ [toUpperAscii drive, ':']

/-- Raw-volume device path built by `FileRecordWorker::Execute`: the
literal `L"\\\\.\\"` unescapes to `\\.\`. -/
def fileRecordVolumePath (drive : Char) : List Char :=
  ['\\', '\\', '.', '\\'] ++ [toUpperAscii drive, ':']

/-- Raw-volume device path built by `DataRunRecoveryWorker::Execute`,
same literal as `FileRecordWorker`. -/
def recoverVolumePath (drive : Char) : List Char :=
  ['\\', '\\', '.', '\\'] ++ [toUpperAscii drive, ':']

/-- The path the claim prescribes for all three operations: `\\.\X:` with
the drive letter uppercased. -/
def claimVolumePath (drive : Char) : List Char :=
  ['\\', '\\', '.', '\\', toUpperAscii drive, ':']

/-- C5: `getFileRecord` and `recoverDataRuns` build `\\.\C:` as claimed,
but `scan`'s literal `L"\\.\\"` denotes `\.\`, so `scan` opens `\.\C:` —
a path that is not the raw-volume device namespace.  The other two workers
show the intended literal; the scan literal is missing one escaped
backslash. -/
theorem volume_path_construction :
    fileRecordVolumePath 'c' = claimVolumePath 'c'
    ∧ recoverVolumePath 'c' = claimVolumePath 'c'
    ∧ scanVolumePath 'c' = ['\\', '.', '\\', 'C', ':']
    ∧ scanVolumePath 'c' ≠ claimVolumePath 'c' := by
  refine ⟨by decide, by decide, by decide, by decide⟩

/-! ## Path reconstruction (post-pass of `ScanUsnWorker::Execute`)

The file table is abstracted as `Nat → Option PathEntry` with names as
converted UTF-8 strings (`List Char`), matching the `std::string` names
the reconstruction loop actually joins. -/

/-- A file-table entry as the path reconstruction sees it. -/
structure PathEntry where
  parentRef : Nat
  name : List Char
  isDirectory : Bool
deriving DecidableEq

/-- The parent walk: starting from the deleted entry's `parentRef`,
collect each non-empty ancestor name in push order; stop at FRN 0, a
missing lookup, a self-referential entry (its name still collected), or
after 1024 steps (the `guard` cycle cap). -/
def walkParents (table : Nat → Option PathEntry) : Nat → Nat → List (List Char)
  | _, 0 => []
  | current, fuel + 1 =>
    if current = 0 then []
    else
      match table current with
      | none => []
      | some e =>
        let segs := if e.name ≠ [] then [e.name] else []
        if current = e.parentRef then segs
        else segs ++ walkParents table e.parentRef fuel

/-- The join step of the reconstruction loop: add a `\` separator unless
the path so far is empty or already ends with `\`. -/
def appendSegment (acc seg : List Char) : List Char :=
  (if acc ≠ [] ∧ acc.getLast? ≠ some '\\' then acc ++ ['\\'] else acc) ++ seg

/-- The reconstructed full path: start from `X:\`, then append the
collected segments outermost ancestor first (the segment list reversed). -/
def buildFullPath (drive : Char) (table : Nat → Option PathEntry)
    (parentRef : Nat) (name : List Char) : List Char :=
  ((name :: walkParents table parentRef 1024).reverse).foldl appendSegment
    [toUpperAscii drive, ':', '\\']

/-- The claim's description: the uppercased drive letter, `:\`, and the
collected segments joined by `\` from outermost ancestor to the entry's
own name. -/
def claimFullPath (drive : Char) (table : Nat → Option PathEntry)
    (parentRef : Nat) (name : List Char) : List Char :=
  [toUpperAscii drive, ':', '\\']
    ++ List.intercalate ['\\'] ((name :: walkParents table parentRef 1024).reverse)

/-- Table for the C8 counterexample: one ancestor whose name ends with a
backslash. -/
def c8Table : Nat → Option PathEntry := fun n =>
  if n = 1 then some ⟨0, ['x', '\\'], true⟩ else none

/-- C8 counterexample: when an ancestor name itself ends with `\`, the
join suppresses the separator, so the result is not the segments joined
by `\` — `D:\x\f` instead of `D:\x\\f`. -/
theorem path_reconstruction_counterexample :
    buildFullPath 'd' c8Table 1 ['f'] = ['D', ':', '\\', 'x', '\\', 'f']
    ∧ claimFullPath 'd' c8Table 1 ['f'] = ['D', ':', '\\', 'x', '\\', '\\', 'f']
    ∧ buildFullPath 'd' c8Table 1 ['f'] ≠ claimFullPath 'd' c8Table 1 ['f'] := by
  refine ⟨by decide, by decide, by decide⟩

theorem getLast?_append_right {α : Type} (a b : List α) (hb : b ≠ []) :
    (a ++ b).getLast? = b.getLast? := by
  rw [List.getLast?_append]
  cases hlast : b.getLast? with
  | none => exact absurd (List.getLast?_eq_none_iff.mp hlast) hb
  | some x => rfl

/-- Every segment the parent walk collects is non-empty, and under the
no-trailing-backslash table hypothesis none ends with `\`. -/
theorem walkParents_segments (table : Nat → Option PathEntry)
    (htable : ∀ n e, table n = some e → e.name.getLast? ≠ some '\\') :
    ∀ fuel current s, s ∈ walkParents table current fuel →
      s ≠ [] ∧ s.getLast? ≠ some '\\' := by
  intro fuel
  induction fuel with
  | zero =>
    intro current s hs
    simp [walkParents] at hs
  | succ fuel ih =>
    intro current s hs
    rw [walkParents] at hs
    split at hs
    · simp at hs
    · rcases hmatch : table current with - | e
      · rw [hmatch] at hs
        simp at hs
      · rw [hmatch] at hs
        dsimp only at hs
        have hsegs : ∀ x ∈ (if e.name ≠ [] then [e.name] else []),
            x ≠ [] ∧ x.getLast? ≠ some '\\' := by
          intro x hx
          split at hx
          · rcases List.mem_singleton.mp hx with rfl
            exact ⟨by assumption, htable current e hmatch⟩
          · simp at hx
        split at hs
        · exact hsegs s hs
        · rcases List.mem_append.mp hs with h | h
          · exact hsegs s h
          · exact ih _ s h

/-- Folding `appendSegment` from a non-empty path not ending in `\` over
segments all of whose non-final members are non-empty and do not end in
`\` is joining with `\` separators. -/
theorem foldl_appendSegment (segs : List (List Char)) :
    ∀ acc : List Char, acc ≠ [] → acc.getLast? ≠ some '\\' →
      (∀ s ∈ segs.dropLast, s ≠ [] ∧ s.getLast? ≠ some '\\') → segs ≠ [] →
      segs.foldl appendSegment acc = acc ++ ['\\'] ++ List.intercalate ['\\'] segs := by
  induction segs with
  | nil =>
    intro acc _ _ _ hne
    exact absurd rfl hne
  | cons s rest ih =>
    rintro acc hacc hlast hgood -
    cases rest with
    | nil =>
      show appendSegment acc s = acc ++ ['\\'] ++ List.intercalate ['\\'] [s]
      rw [appendSegment, if_pos ⟨hacc, hlast⟩]
      simp [List.intercalate]
    | cons s' t =>
      have hs : s ≠ [] ∧ s.getLast? ≠ some '\\' := by
        apply hgood s
        simp
      show (s' :: t).foldl appendSegment (appendSegment acc s) = _
      have hstep : appendSegment acc s = (acc ++ ['\\']) ++ s := by
        rw [appendSegment, if_pos ⟨hacc, hlast⟩]
      rw [hstep]
      have hrec := ih ((acc ++ ['\\']) ++ s) (by simp [hs.1])
        (by rw [getLast?_append_right _ s hs.1]; exact hs.2)
        (by
          intro x hx
          apply hgood x
          rw [List.dropLast_cons₂]
          exact List.mem_cons_of_mem s hx)
        (by simp)
      rw [hrec]
      have hinter : List.intercalate ['\\'] (s :: s' :: t)
          = s ++ ['\\'] ++ List.intercalate ['\\'] (s' :: t) := by
        simp [List.intercalate, List.intersperse]
      rw [hinter]
      simp [List.append_assoc]

/-- C8 amended: for every deleted entry and file table whose names do not
end with a backslash, the reconstructed path is the uppercased drive
letter, `:\`, and the collected segments (the entry's own name preceded by
each non-empty ancestor name found by repeated parentRef lookup, the walk
stopping at FRN 0, self-reference — name still included —, a missing
lookup, or depth 1024) joined by `\` from outermost ancestor to the
entry's name; a missing ancestor yields a partial path, never an error.
When a collected name ends with `\`, the join omits the following
separator. -/
theorem path_reconstruction (drive : Char) (table : Nat → Option PathEntry)
    (parentRef : Nat) (name : List Char)
    (htable : ∀ n e, table n = some e → e.name.getLast? ≠ some '\\') :
    buildFullPath drive table parentRef name
      = claimFullPath drive table parentRef name := by
  unfold buildFullPath claimFullPath
  rcases hwalk : (walkParents table parentRef 1024).reverse with - | ⟨s₁, rest⟩
  · have hrev : (name :: walkParents table parentRef 1024).reverse = [name] := by
      rw [List.reverse_cons, hwalk]
      rfl
    rw [hrev]
    show appendSegment [toUpperAscii drive, ':', '\\'] name = _
    rw [appendSegment, if_neg (by simp)]
    simp [List.intercalate]
  · have hrev : (name :: walkParents table parentRef 1024).reverse
        = s₁ :: (rest ++ [name]) := by
      rw [List.reverse_cons, hwalk]
      rfl
    rw [hrev]
    have hmem : ∀ s ∈ s₁ :: rest, s ≠ [] ∧ s.getLast? ≠ some '\\' := by
      intro s hs
      have : s ∈ (walkParents table parentRef 1024).reverse := by
        rw [hwalk]
        exact hs
      exact walkParents_segments table htable 1024 parentRef s
        (List.mem_reverse.mp this)
    have hs₁ := hmem s₁ (List.mem_cons_self _ _)
    show (rest ++ [name]).foldl appendSegment
        (appendSegment [toUpperAscii drive, ':', '\\'] s₁) = _
    have hstep : appendSegment [toUpperAscii drive, ':', '\\'] s₁
        = [toUpperAscii drive, ':', '\\'] ++ s₁ := by
      rw [appendSegment, if_neg (by simp)]
    rw [hstep]
    have hrec := foldl_appendSegment (rest ++ [name])
      ([toUpperAscii drive, ':', '\\'] ++ s₁) (by simp)
      (by rw [getLast?_append_right _ s₁ hs₁.1]; exact hs₁.2)
      (by
        intro x hx
        rw [List.dropLast_concat] at hx
        exact hmem x (List.mem_cons_of_mem s₁ hx))
      (by simp)
    rw [hrec]
    have hinter : List.intercalate ['\\'] (s₁ :: (rest ++ [name]))
        = s₁ ++ ['\\'] ++ List.intercalate ['\\'] (rest ++ [name]) := by
      cases rest <;> simp [List.intercalate, List.intersperse]
    rw [hinter]
    simp [List.append_assoc]

/-- The spec's §8 example table: FRN 5 is directory `docs` under the
root. -/
def c8WitnessTable : Nat → Option PathEntry := fun n =>
  if n = 5 then some ⟨0, ['d', 'o', 'c', 's'], true⟩ else none

/-- Witness: deleted entry `note.txt` under FRN 5 on drive `c`
reconstructs to `C:\docs\note.txt`, equal to the claim's join. -/
theorem path_reconstruction_witness :
    buildFullPath 'c' c8WitnessTable 5 ['n', 'o', 't', 'e', '.', 't', 'x', 't']
      = claimFullPath 'c' c8WitnessTable 5 ['n', 'o', 't', 'e', '.', 't', 'x', 't']
    ∧ buildFullPath 'c' c8WitnessTable 5 ['n', 'o', 't', 'e', '.', 't', 'x', 't']
      = ['C', ':', '\\', 'd', 'o', 'c', 's', '\\',
          'n', 'o', 't', 'e', '.', 't', 'x', 't'] := by
  refine ⟨path_reconstruction 'c' c8WitnessTable 5 _ ?_, by decide⟩
  intro n e h
  unfold c8WitnessTable at h
  by_cases hn : n = 5
  · rw [if_pos hn] at h
    have he := Option.some_inj.mp h
    rw [← he]
    decide
  · rw [if_neg hn] at h
    exact Option.noConfusion h

end UsnScanner
